import Mathlib

/-!
Verification of the `pit-wall` progress-reporting library (`src/lib.rs`).

The library tracks a named job with a `u64` work total and a `u64` work-done
counter, estimates remaining time by linear interpolation in `f64`
arithmetic, and renders a one-line status string.

Embedding notes:
* `u64` values are embedded as `Nat`; the unchecked `u64` addition in
  `inc_work_done` / `inc_work_done_by` is embedded with its release-profile
  semantics, wrapping modulo `2 ^ 64`.
* The `f64` computations of `estimate_time_left` and of the percentage are
  embedded exactly: every nonnegative finite IEEE-754 binary64 value is an
  integer multiple of `2 ^ (-1074)`, so a finite nonnegative double is
  represented as that integer numerator (`F64.val k` stands for the real
  value `k / 2 ^ 1074`).  `roundPos` performs IEEE round-to-nearest-even on
  a nonnegative rational given as a numerator/denominator pair, including
  the subnormal ulp clamp at `2 ^ (-1074)` and overflow to `+infinity`.
  The pipeline only ever produces nonnegative values, `+infinity`, or NaN,
  so negative doubles and `-infinity` are not modelled.
* `Instant` arithmetic is abstracted: the whole-second count of the elapsed
  `Duration` (`Duration::as_secs`) enters `estimate_time_left` as an
  explicit `elapsed_secs : Nat` argument, and the sub-second Debug
  rendering of the elapsed time enters `get_progress_string` as an
  explicit string argument.
-/

set_option maxRecDepth 40000

namespace PitWall

/-! ## Exact model of nonnegative IEEE-754 binary64 arithmetic -/

/-- Round the nonnegative rational `n / d` to the nearest integer, ties to
even; this is the rounding used both by IEEE binary64 operations and by
Rust's fixed-precision float formatting. -/
def rne (n d : ℕ) : ℕ :=
  if 2 * (n % d) < d then n / d
  else if d < 2 * (n % d) then n / d + 1
  else if n / d % 2 = 0 then n / d else n / d + 1

/-- Fuel-based floor of `log2` (the fuel makes it structurally recursive, so
that the kernel can evaluate it). -/
def log2fuel : ℕ → ℕ → ℕ
  | 0, _ => 0
  | f + 1, n => if n < 2 then 0 else log2fuel f (n / 2) + 1

/-- A nonnegative IEEE-754 binary64 value as produced by this pipeline:
NaN, `+infinity`, or a finite nonnegative value `k / 2 ^ 1074`. -/
inductive F64 where
  | nan : F64
  | inf : F64
  | val : ℕ → F64
  deriving DecidableEq

/-- The shifted ulp exponent for rounding `n / d`: the ulp is
`2 ^ (roundExp n d - 1074)`, i.e. `2 ^ (max (e - 52) (-1074))` where `e` is
the floor of the base-2 logarithm of `n / d` (the denormal clamp of IEEE
binary64). -/
def roundExp (n d : ℕ) : ℕ :=
  log2fuel 4500 (n * 2 ^ 1200 / d) - 178

/-- The rounded significand of `n / d`, in units of the ulp
`2 ^ (roundExp n d - 1074)`. -/
def roundMant (n d : ℕ) : ℕ :=
  rne (n * 2 ^ 1074) (d * 2 ^ roundExp n d)

/-- IEEE round-to-nearest-even of the nonnegative rational `n / d` to a
binary64 value, with the denormal ulp clamp at `2 ^ (-1074)` and overflow
to `+infinity` at `2 ^ 1024` (numerator threshold `2 ^ 2098` in units of
`2 ^ (-1074)`). -/
def roundPos (n d : ℕ) : F64 :=
  if 2 ^ 2098 ≤ roundMant n d * 2 ^ roundExp n d then F64.inf
  else F64.val (roundMant n d * 2 ^ roundExp n d)

/-- Rust `u64 as f64` conversion (round to nearest, ties to even). -/
def f64ofNat (x : ℕ) : F64 :=
  roundPos x 1

/-- IEEE binary64 division restricted to the nonnegative values of this
pipeline; `x / 0` is `+infinity` for `x > 0` and NaN for `x = 0`. -/
def f64div : F64 → F64 → F64
  | F64.nan, _ => F64.nan
  | _, F64.nan => F64.nan
  | F64.inf, F64.inf => F64.nan
  | F64.inf, F64.val _ => F64.inf
  | F64.val _, F64.inf => F64.val 0
  | F64.val a, F64.val b =>
    if b = 0 then (if a = 0 then F64.nan else F64.inf) else roundPos a b

/-- IEEE binary64 multiplication restricted to the nonnegative values of
this pipeline; `infinity * 0` is NaN. -/
def f64mul : F64 → F64 → F64
  | F64.nan, _ => F64.nan
  | _, F64.nan => F64.nan
  | F64.inf, F64.inf => F64.inf
  | F64.inf, F64.val b => if b = 0 then F64.nan else F64.inf
  | F64.val a, F64.inf => if a = 0 then F64.nan else F64.inf
  | F64.val a, F64.val b => roundPos (a * b) (2 ^ 2148)

/-- Rust `f64 as u64` cast: saturating, truncating toward zero; NaN casts
to `0` and `+infinity` to `u64::MAX`. -/
def f64toU64 : F64 → ℕ
  | F64.nan => 0
  | F64.inf => 2 ^ 64 - 1
  | F64.val a => min (a / 2 ^ 1074) (2 ^ 64 - 1)

/-! ## The `Progress` struct and its methods (`src/lib.rs`) -/

/-- The struct holding the progress state (`struct Progress`). -/
structure Progress where
  name : String
  work_done : ℕ
  started_at : ℕ
  work_total : ℕ

/-- `Progress::new(name, work_todo)`: captures the current instant and
starts the counter at zero.  The captured instant is the explicit `now`
argument. -/
def Progress.new (name : String) (work_todo : ℕ) (now : ℕ) : Progress :=
  { name := name, started_at := now, work_done := 0, work_total := work_todo }

/-- `Progress::inc_work_done`: `self.work_done = self.work_done + 1`.
Unchecked `u64` addition wraps modulo `2 ^ 64` (release profile). -/
def Progress.inc_work_done (p : Progress) : Progress :=
  { p with work_done := (p.work_done + 1) % 2 ^ 64 }

/-- `Progress::inc_work_done_by`: `self.work_done = self.work_done + units`.
Unchecked `u64` addition wraps modulo `2 ^ 64` (release profile). -/
def Progress.inc_work_done_by (p : Progress) (units : ℕ) : Progress :=
  { p with work_done := (p.work_done + units) % 2 ^ 64 }

/-- `Progress::set_work_done`: `self.work_done = units`. -/
def Progress.set_work_done (p : Progress) (units : ℕ) : Progress :=
  { p with work_done := units }

/-- `Progress::estimate_time_left`, which computes
`work_not_done = self.work_total.checked_sub(self.work_done).unwrap_or(self.work_total)`,
then the `f64` ratio `work_not_done as f64 / work_done as f64`, multiplies
by `seconds_since_start.as_secs() as f64`, and truncates with `as u64`.
The result is the second count of the returned `Duration`
(`Duration::from_secs`). -/
def Progress.estimate_time_left (p : Progress) (elapsed_secs : ℕ) : ℕ :=
  f64toU64 (f64mul
    (f64div
      (f64ofNat (if p.work_done ≤ p.work_total then p.work_total - p.work_done
                 else p.work_total))
      (f64ofNat p.work_done))
    (f64ofNat elapsed_secs))

/-! ## Decimal rendering of `u64` values (Rust integer `Display`) -/

/-- One decimal digit character. -/
def decDigit : ℕ → Char
  | 0 => '0'
  | 1 => '1'
  | 2 => '2'
  | 3 => '3'
  | 4 => '4'
  | 5 => '5'
  | 6 => '6'
  | 7 => '7'
  | 8 => '8'
  | _ => '9'

/-- Accumulator-based decimal digit list of a natural number (most
significant digit first); the fuel makes it structurally recursive. -/
def decReprAux : ℕ → ℕ → List Char → List Char
  | 0, _, acc => acc
  | f + 1, n, acc =>
    if n < 10 then decDigit n :: acc
    else decReprAux f (n / 10) (decDigit (n % 10) :: acc)

/-- Decimal rendering of a natural number, as Rust's integer `Display`
produces it. -/
def decRepr (n : ℕ) : String :=
  ⟨decReprAux (n + 1) n []⟩

/-! ## `humantime::format_duration` for whole-second durations

The ETA string is produced by the `humantime` crate.  The durations fed to
it by this library always have a zero nanosecond part
(`Duration::from_secs`), so only the second-based units are modelled.  The
unit decomposition and rendering follow the crate's `Display`
implementation: a year is `31557600` seconds (365.25 days) and a month
`2630016` seconds (30.44 days); zero-valued units are skipped, and a zero
duration renders as `"0s"`. -/

/-- One pluralisable unit field of `humantime`, e.g. `"1year"`/`"2years"`;
empty when the value is zero. -/
def plural_item (unit_name : String) (v : ℕ) : List String :=
  if v = 0 then []
  else if v = 1 then [decRepr v ++ unit_name]
  else [decRepr v ++ unit_name ++ "s"]

/-- One non-pluralisable unit field of `humantime`, e.g. `"5s"`; empty when
the value is zero. -/
def unit_item (unit_name : String) (v : ℕ) : List String :=
  if v = 0 then [] else [decRepr v ++ unit_name]

/-- The nonempty unit fields of `humantime`, most significant first. -/
def humantimeParts (secs : ℕ) : List String :=
  plural_item "year" (secs / 31557600) ++
  plural_item "month" (secs % 31557600 / 2630016) ++
  plural_item "day" (secs % 31557600 % 2630016 / 86400) ++
  unit_item "h" (secs % 31557600 % 2630016 % 86400 / 3600) ++
  unit_item "m" (secs % 31557600 % 2630016 % 86400 % 3600 / 60) ++
  unit_item "s" (secs % 31557600 % 2630016 % 86400 % 60)

/-- Join a list of strings with single spaces. -/
def joinSp : List String → String
  | [] => ""
  | x :: xs => x ++ (match xs with | [] => "" | _ :: _ => " " ++ joinSp xs)

/-- `humantime::format_duration` on a whole-second duration. -/
def humantimeFmt (secs : ℕ) : String :=
  if secs = 0 then "0s" else joinSp (humantimeParts secs)

/-! ## The status-string formatter (`get_progress_string`) -/

/-- Rust formatting of an `f64` with precision 1 (the `percent` field):
the exact value of the double rounded to one decimal place, ties to even;
NaN renders as `"NaN"` and `+infinity` as `"inf"`. -/
def fmtF64Prec1 : F64 → String
  | F64.nan => "NaN"
  | F64.inf => "inf"
  | F64.val a =>
    decRepr (rne (a * 10) (2 ^ 1074) / 10) ++ "." ++
      decRepr (rne (a * 10) (2 ^ 1074) % 10)

/-- The percentage field of `get_progress_string`:
`self.work_done as f64 / self.work_total as f64 * 100f64` formatted with
precision 1. -/
def pctString (p : Progress) : String :=
  fmtF64Prec1 (f64mul (f64div (f64ofNat p.work_done) (f64ofNat p.work_total))
    (f64ofNat 100))

/-- The `eta` local of `get_progress_string`: the literal `"done!"` when
`self.work_done == self.work_total`, otherwise the `humantime` rendering of
`estimate_time_left`. -/
def Progress.etaOf (p : Progress) (elapsed_secs : ℕ) : String :=
  if p.work_done = p.work_total then "done!"
  else humantimeFmt (p.estimate_time_left elapsed_secs)

/-- `Progress::get_progress_string`: the `format!` template
`name, work_done, slash, work_total, percent, elapsed, eta` joined by the
literal separators of the source format string.  `elapsed_str` is the
`Debug`-with-precision-0 rendering of the elapsed `Duration` and
`elapsed_secs` its whole-second count (see the header on time
abstraction). -/
def Progress.get_progress_string (p : Progress) (elapsed_str : String)
    (elapsed_secs : ℕ) : String :=
  p.name ++ " " ++ decRepr p.work_done ++ "/" ++ decRepr p.work_total ++
    " - " ++ pctString p ++ "% started " ++ elapsed_str ++ " ago, eta: " ++
    Progress.etaOf p elapsed_secs

/-- The call shape of `get_progress_string`: the method borrows `self`
immutably (`&self`), so a call returns the string together with the
unchanged receiver state. -/
def Progress.get_progress_string_call (p : Progress) (elapsed_str : String)
    (elapsed_secs : ℕ) : String × Progress :=
  (p.get_progress_string elapsed_str elapsed_secs, p)

/-! ## Arithmetic lemmas about the binary64 model -/

/-- The constructor-level equation of `f64div` on finite values. -/
theorem f64div_val_val (a b : ℕ) : f64div (F64.val a) (F64.val b) =
    if b = 0 then (if a = 0 then F64.nan else F64.inf) else roundPos a b := rfl

/-- The constructor-level equation of `f64mul` on finite values. -/
theorem f64mul_val_val (a b : ℕ) : f64mul (F64.val a) (F64.val b) =
    roundPos (a * b) (2 ^ 2148) := rfl

/-- The constructor-level equation of `f64toU64` on finite values. -/
theorem f64toU64_val_eq (a : ℕ) : f64toU64 (F64.val a) =
    min (a / 2 ^ 1074) (2 ^ 64 - 1) := rfl

theorem rne_exact (n d : ℕ) (hd : 0 < d) (hdvd : d ∣ n) : rne n d = n / d := by
  obtain ⟨c, rfl⟩ := hdvd
  unfold rne
  simp [Nat.mul_mod_right, hd]

theorem rne_ge (n d : ℕ) : n / d ≤ rne n d := by
  unfold rne
  split
  · exact Nat.le_refl _
  · split
    · exact Nat.le_succ _
    · split
      · exact Nat.le_refl _
      · exact Nat.le_succ _

theorem rne_le (n d : ℕ) : rne n d ≤ n / d + 1 := by
  unfold rne
  split
  · exact Nat.le_succ _
  · split
    · exact Nat.le_refl _
    · split
      · exact Nat.le_succ _
      · exact Nat.le_refl _

theorem log2fuel_zero (f : ℕ) : log2fuel f 0 = 0 := by
  cases f with
  | zero => rfl
  | succ f => simp [log2fuel]

theorem log2fuel_spec (f : ℕ) : ∀ x : ℕ, 0 < x → x < 2 ^ f →
    2 ^ log2fuel f x ≤ x ∧ x < 2 ^ (log2fuel f x + 1) := by
  induction f with
  | zero =>
    intro x hx h
    simp at h
    omega
  | succ f ih =>
    intro x hx h
    by_cases h2 : x < 2
    · have hz : log2fuel (f + 1) x = 0 := by simp [log2fuel, h2]
      rw [hz]
      simp
      omega
    · have hrec : log2fuel (f + 1) x = log2fuel f (x / 2) + 1 := by
        simp [log2fuel, h2]
      rw [hrec]
      have hx2 : 0 < x / 2 := by omega
      have hlt : x / 2 < 2 ^ f := by
        have hp : (2 : ℕ) ^ (f + 1) = 2 * 2 ^ f := by ring
        omega
      obtain ⟨ih1, ih2⟩ := ih (x / 2) hx2 hlt
      have hp1 : (2 : ℕ) ^ (log2fuel f (x / 2) + 1) =
          2 * 2 ^ log2fuel f (x / 2) := by ring
      have hp2 : (2 : ℕ) ^ (log2fuel f (x / 2) + 1 + 1) =
          2 * 2 ^ (log2fuel f (x / 2) + 1) := by ring
      omega

/-- Rounding is exact on nonnegative rationals whose value is an integer
below `2 ^ 53` (an integer in the exactly-representable range of binary64). -/
theorem roundPos_exact (n d : ℕ) (hd : 0 < d) (hdvd : d ∣ n)
    (hq : n / d < 2 ^ 53) : roundPos n d = F64.val (n / d * 2 ^ 1074) := by
  obtain ⟨q, rfl⟩ := hdvd
  rw [Nat.mul_div_cancel_left q hd] at hq ⊢
  rcases Nat.eq_zero_or_pos q with hq0 | hqpos
  · subst hq0
    have hx : d * 0 * 2 ^ 1200 / d = 0 := by simp
    have hE : roundExp (d * 0) d = 0 := by
      unfold roundExp
      rw [hx, log2fuel_zero]
    have hM : roundMant (d * 0) d = 0 := by
      unfold roundMant
      rw [hE]
      simp [rne, Nat.mod_eq_of_lt, hd]
    unfold roundPos
    rw [hE, hM]
    rw [if_neg (Nat.not_le.mpr (by positivity))]
    simp
  · -- the scaled input to the logarithm is exactly q * 2 ^ 1200
    have hx : d * q * 2 ^ 1200 / d = q * 2 ^ 1200 := by
      rw [Nat.mul_assoc, Nat.mul_div_cancel_left _ hd]
    have hxpos : 0 < q * 2 ^ 1200 := Nat.mul_pos hqpos (Nat.pos_pow_of_pos _ (by norm_num))
    have hxlt1253 : q * 2 ^ 1200 < 2 ^ 1253 := by
      calc q * 2 ^ 1200 < 2 ^ 53 * 2 ^ 1200 :=
            (Nat.mul_lt_mul_right (Nat.pos_pow_of_pos _ (by norm_num))).mpr hq
        _ = 2 ^ 1253 := by rw [← pow_add]
    have hxlt : q * 2 ^ 1200 < 2 ^ 4500 :=
      lt_of_lt_of_le hxlt1253 (Nat.pow_le_pow_right (by norm_num) (by norm_num))
    obtain ⟨hL1, hL2⟩ := log2fuel_spec 4500 (q * 2 ^ 1200) hxpos hxlt
    set L := log2fuel 4500 (q * 2 ^ 1200) with hLdef
    -- L ≤ 1252, hence the ulp exponent W = L - 178 is at most 1074
    have hLle : L ≤ 1252 := by
      by_contra hcon
      have h1253 : (2 : ℕ) ^ 1253 ≤ 2 ^ L := Nat.pow_le_pow_right (by norm_num) (by omega)
      omega
    have hE : roundExp (d * q) d = L - 178 := by
      unfold roundExp
      rw [hx]
    set W := L - 178 with hWdef
    have hWle : W ≤ 1074 := by omega
    have hsplit : (2 : ℕ) ^ 1074 = 2 ^ (1074 - W) * 2 ^ W := by
      rw [← pow_add]
      have harith0 : 1074 - W + W = 1074 := by omega
      rw [harith0]
    have hM : roundMant (d * q) d = q * 2 ^ (1074 - W) := by
      unfold roundMant
      rw [hE]
      have hdpos : 0 < d * 2 ^ W := Nat.mul_pos hd (Nat.pos_pow_of_pos _ (by norm_num))
      have hdvd2 : d * 2 ^ W ∣ d * q * 2 ^ 1074 := by
        rw [hsplit]
        exact ⟨q * 2 ^ (1074 - W), by ring⟩
      rw [rne_exact _ _ hdpos hdvd2]
      rw [hsplit]
      have hcomm : d * q * (2 ^ (1074 - W) * 2 ^ W) =
          d * 2 ^ W * (q * 2 ^ (1074 - W)) := by ring
      rw [hcomm, Nat.mul_div_cancel_left _ hdpos]
    have hval : roundMant (d * q) d * 2 ^ roundExp (d * q) d = q * 2 ^ 1074 := by
      rw [hM, hE]
      rw [Nat.mul_assoc, ← pow_add]
      have harith : 1074 - W + W = 1074 := by omega
      rw [harith]
    unfold roundPos
    rw [hval]
    have hlt : q * 2 ^ 1074 < 2 ^ 2098 := by
      calc q * 2 ^ 1074 < 2 ^ 53 * 2 ^ 1074 :=
            (Nat.mul_lt_mul_right (Nat.pos_pow_of_pos _ (by norm_num))).mpr hq
        _ = 2 ^ 1127 := by rw [← pow_add]
        _ ≤ 2 ^ 2098 := Nat.pow_le_pow_right (by norm_num) (by norm_num)
    rw [if_neg (by omega)]

theorem f64ofNat_exact (x : ℕ) (hx : x < 2 ^ 53) :
    f64ofNat x = F64.val (x * 2 ^ 1074) := by
  have := roundPos_exact x 1 (by norm_num) (one_dvd x) (by simpa using hx)
  simpa [f64ofNat] using this

theorem f64div_exact (a b : ℕ) (hb : 0 < b) (hdvd : b ∣ a)
    (hq : a / b < 2 ^ 53) :
    f64div (F64.val (a * 2 ^ 1074)) (F64.val (b * 2 ^ 1074)) =
      F64.val (a / b * 2 ^ 1074) := by
  have hb2 : b * 2 ^ 1074 ≠ 0 :=
    Nat.pos_iff_ne_zero.mp (Nat.mul_pos hb (Nat.pos_pow_of_pos _ (by norm_num)))
  rw [f64div_val_val, if_neg hb2]
  have hdvd2 : b * 2 ^ 1074 ∣ a * 2 ^ 1074 := Nat.mul_dvd_mul_right hdvd _
  have hqeq : a * 2 ^ 1074 / (b * 2 ^ 1074) = a / b :=
    Nat.mul_div_mul_right a b (Nat.pos_pow_of_pos _ (by norm_num))
  rw [roundPos_exact _ _ (Nat.pos_of_ne_zero hb2) hdvd2 (by rw [hqeq]; exact hq), hqeq]

theorem f64mul_exact (a b : ℕ) (hab : a * b < 2 ^ 53) :
    f64mul (F64.val (a * 2 ^ 1074)) (F64.val (b * 2 ^ 1074)) =
      F64.val (a * b * 2 ^ 1074) := by
  rw [f64mul_val_val]
  have heq : a * 2 ^ 1074 * (b * 2 ^ 1074) = a * b * 2 ^ 2148 := by
    rw [show (2 : ℕ) ^ 2148 = 2 ^ 1074 * 2 ^ 1074 by rw [← pow_add]]
    ring
  have hdvd : (2 : ℕ) ^ 2148 ∣ a * b * 2 ^ 2148 := Dvd.intro_left _ rfl
  have hq : a * b * 2 ^ 2148 / 2 ^ 2148 = a * b :=
    Nat.mul_div_cancel _ (Nat.pos_pow_of_pos _ (by norm_num))
  rw [heq, roundPos_exact _ _ (Nat.pos_pow_of_pos _ (by norm_num)) hdvd (by rw [hq]; exact hab),
    hq]

theorem f64toU64_val (a : ℕ) (h : a < 2 ^ 64) :
    f64toU64 (F64.val (a * 2 ^ 1074)) = a := by
  rw [f64toU64_val_eq, Nat.mul_div_cancel _ (Nat.pos_pow_of_pos _ (by norm_num))]
  omega

theorem f64ofNat_zero : f64ofNat 0 = F64.val 0 := by
  have h := f64ofNat_exact 0 (Nat.pos_pow_of_pos 53 (by norm_num))
  rw [Nat.zero_mul] at h
  exact h

theorem f64mul_inf_val (b : ℕ) : f64mul F64.inf (F64.val b) =
    if b = 0 then F64.nan else F64.inf := rfl

/-- Converting a positive `u64` to binary64 yields a positive finite
value. -/
theorem f64ofNat_pos (T : ℕ) (h1 : 0 < T) (h2 : T < 2 ^ 64) :
    ∃ k, f64ofNat T = F64.val k ∧ 0 < k := by
  have hx : T * 2 ^ 1200 / 1 = T * 2 ^ 1200 := Nat.div_one _
  have hxpos : 0 < T * 2 ^ 1200 :=
    Nat.mul_pos h1 (Nat.pos_pow_of_pos _ (by norm_num))
  have hxlt1264 : T * 2 ^ 1200 < 2 ^ 1264 := by
    calc T * 2 ^ 1200 < 2 ^ 64 * 2 ^ 1200 :=
          (Nat.mul_lt_mul_right (Nat.pos_pow_of_pos _ (by norm_num))).mpr h2
      _ = 2 ^ 1264 := by rw [← pow_add]
  have hxlt : T * 2 ^ 1200 < 2 ^ 4500 :=
    lt_of_lt_of_le hxlt1264 (Nat.pow_le_pow_right (by norm_num) (by norm_num))
  obtain ⟨hL1, hL2⟩ := log2fuel_spec 4500 (T * 2 ^ 1200) hxpos hxlt
  set L := log2fuel 4500 (T * 2 ^ 1200) with hLdef
  have hE : roundExp T 1 = L - 178 := by
    unfold roundExp
    rw [hx]
  have hL1200 : 1200 ≤ L := by
    by_contra hcon
    have hup : (2 : ℕ) ^ (L + 1) ≤ 2 ^ 1200 := Nat.pow_le_pow_right (by norm_num) (by omega)
    have hlow : (2 : ℕ) ^ 1200 ≤ T * 2 ^ 1200 := Nat.le_mul_of_pos_left _ h1
    omega
  have hL1263 : L ≤ 1263 := by
    by_contra hcon
    have h1264 : (2 : ℕ) ^ 1264 ≤ 2 ^ L := Nat.pow_le_pow_right (by norm_num) (by omega)
    omega
  set W := L - 178 with hWdef
  have hM : roundMant T 1 = rne (T * 2 ^ 1074) (2 ^ W) := by
    unfold roundMant
    rw [hE, one_mul]
  set m := rne (T * 2 ^ 1074) (2 ^ W) with hmdef
  -- lower bound: the ulp does not exceed the value, so the mantissa is positive
  have hle : 2 ^ W ≤ T * 2 ^ 1074 := by
    have hup : (2 : ℕ) ^ W * 2 ^ 126 ≤ T * 2 ^ 1074 * 2 ^ 126 := by
      rw [← pow_add, Nat.mul_assoc, ← pow_add]
      calc (2 : ℕ) ^ (W + 126) ≤ 2 ^ L :=
            Nat.pow_le_pow_right (by norm_num) (by omega)
        _ ≤ T * 2 ^ 1200 := hL1
    exact Nat.le_of_mul_le_mul_right hup (Nat.pos_pow_of_pos _ (by norm_num))
  have hmpos : 0 < m := by
    have hfloor : 1 ≤ T * 2 ^ 1074 / 2 ^ W :=
      (Nat.one_le_div_iff (Nat.pos_pow_of_pos _ (by norm_num))).mpr hle
    have := rne_ge (T * 2 ^ 1074) (2 ^ W)
    omega
  -- upper bound: no overflow to infinity
  have hbig : m * 2 ^ W < 2 ^ 2098 := by
    have hmle : m ≤ T * 2 ^ 1074 / 2 ^ W + 1 := rne_le _ _
    have hstep : m * 2 ^ W ≤ T * 2 ^ 1074 + 2 ^ W := by
      calc m * 2 ^ W ≤ (T * 2 ^ 1074 / 2 ^ W + 1) * 2 ^ W :=
            Nat.mul_le_mul_right _ hmle
        _ = T * 2 ^ 1074 / 2 ^ W * 2 ^ W + 2 ^ W := by ring
        _ ≤ T * 2 ^ 1074 + 2 ^ W := by
            have := Nat.div_mul_le_self (T * 2 ^ 1074) (2 ^ W)
            omega
    have hT1 : T * 2 ^ 1074 < 2 ^ 1138 := by
      calc T * 2 ^ 1074 < 2 ^ 64 * 2 ^ 1074 :=
            (Nat.mul_lt_mul_right (Nat.pos_pow_of_pos _ (by norm_num))).mpr h2
        _ = 2 ^ 1138 := by rw [← pow_add]
    have hW1 : (2 : ℕ) ^ W ≤ 2 ^ 1138 := Nat.pow_le_pow_right (by norm_num) (by omega)
    have hsum : (2 : ℕ) ^ 1138 + 2 ^ 1138 = 2 ^ 1139 := by
      rw [← two_mul, ← pow_succ']
    have hfin : (2 : ℕ) ^ 1139 ≤ 2 ^ 2098 := Nat.pow_le_pow_right (by norm_num) (by norm_num)
    omega
  refine ⟨m * 2 ^ W, ?_, Nat.mul_pos hmpos (Nat.pos_pow_of_pos _ (by norm_num))⟩
  unfold f64ofNat roundPos
  rw [hM, hE, if_neg (by omega)]

/-! ## String lemmas about the formatter -/

theorem decDigit_isDigit (n : ℕ) : (decDigit n).isDigit = true := by
  unfold decDigit
  split <;> decide

theorem decReprAux_structure (f : ℕ) : ∀ n acc, n < f →
    ∃ l, decReprAux f n acc = l ++ acc ∧ l ≠ [] ∧ ∀ c ∈ l, c.isDigit = true := by
  induction f with
  | zero => intro n acc h; omega
  | succ f ih =>
    intro n acc h
    by_cases h10 : n < 10
    · refine ⟨[decDigit n], by simp [decReprAux, h10], by simp, ?_⟩
      intro c hc
      simp at hc
      subst hc
      exact decDigit_isDigit n
    · have hn : n / 10 < f := by omega
      obtain ⟨l, hl, hlne, hld⟩ := ih (n / 10) (decDigit (n % 10) :: acc) hn
      refine ⟨l ++ [decDigit (n % 10)], ?_, by simp, ?_⟩
      · simp only [decReprAux, if_neg h10]
        rw [hl]
        simp
      · intro c hc
        rcases List.mem_append.mp hc with h' | h'
        · exact hld c h'
        · simp at h'
          subst h'
          exact decDigit_isDigit _

theorem decRepr_structure (n : ℕ) :
    (decRepr n).data ≠ [] ∧ ∀ c ∈ (decRepr n).data, c.isDigit = true := by
  obtain ⟨l, hl, hlne, hld⟩ := decReprAux_structure (n + 1) n [] (Nat.lt_succ_self n)
  have hdata : (decRepr n).data = l := by
    show decReprAux (n + 1) n [] = l
    rw [hl]
    simp
  rw [hdata]
  exact ⟨hlne, hld⟩

theorem decRepr_head (n : ℕ) :
    ∃ c cs, (decRepr n).data = c :: cs ∧ c.isDigit = true := by
  obtain ⟨hne, hdig⟩ := decRepr_structure n
  cases hd : (decRepr n).data with
  | nil => exact absurd hd hne
  | cons c cs => exact ⟨c, cs, rfl, hdig c (by rw [hd]; simp)⟩

theorem joinSp_eq_append (x : String) (xs : List String) :
    ∃ rest : String, joinSp (x :: xs) = x ++ rest := by
  cases xs with
  | nil => exact ⟨"", rfl⟩
  | cons y ys => exact ⟨" " ++ joinSp (y :: ys), rfl⟩

theorem joinSp_head (L : List String) (hne : L ≠ [])
    (hall : ∀ x ∈ L, ∃ c cs, x.data = c :: cs ∧ c.isDigit = true) :
    ∃ c cs, (joinSp L).data = c :: cs ∧ c.isDigit = true := by
  cases L with
  | nil => exact absurd rfl hne
  | cons x xs =>
    obtain ⟨c, cs, hx, hc⟩ := hall x (by simp)
    obtain ⟨rest, hrest⟩ := joinSp_eq_append x xs
    refine ⟨c, cs ++ rest.data, ?_, hc⟩
    rw [hrest, String.data_append, hx]
    rfl

theorem joinSp_chars (P : Char → Prop) (hsp : P ' ') :
    ∀ L : List String, (∀ x ∈ L, ∀ c ∈ x.data, P c) →
      ∀ c ∈ (joinSp L).data, P c := by
  intro L
  induction L with
  | nil =>
    intro _ c hc
    simp [joinSp] at hc
  | cons x xs ih =>
    intro hall c hc
    cases xs with
    | nil =>
      have hx : joinSp [x] = x ++ "" := rfl
      rw [hx, String.data_append] at hc
      simp at hc
      exact hall x (by simp) c hc
    | cons y ys =>
      have hx : joinSp (x :: y :: ys) = x ++ (" " ++ joinSp (y :: ys)) := rfl
      rw [hx, String.data_append, String.data_append] at hc
      rcases List.mem_append.mp hc with h' | h'
      · exact hall x (by simp) c h'
      · rcases List.mem_append.mp h' with h2 | h2
        · have hspd : (" " : String).data = [' '] := rfl
          rw [hspd] at h2
          simp at h2
          subst h2
          exact hsp
        · exact ih (fun z hz => hall z (by simp [hz])) c h2

theorem plural_item_eq_nil (nm : String) (v : ℕ) :
    plural_item nm v = [] ↔ v = 0 := by
  unfold plural_item
  split
  · simp [*]
  · split <;> simp [*]

theorem unit_item_eq_nil (nm : String) (v : ℕ) :
    unit_item nm v = [] ↔ v = 0 := by
  unfold unit_item
  split <;> simp [*]

theorem plural_item_head (nm : String) (v : ℕ) :
    ∀ x ∈ plural_item nm v, ∃ c cs, x.data = c :: cs ∧ c.isDigit = true := by
  intro x hx
  obtain ⟨c, cs, hd, hc⟩ := decRepr_head v
  unfold plural_item at hx
  split at hx
  · simp at hx
  · split at hx
    · simp at hx
      subst hx
      refine ⟨c, cs ++ nm.data, ?_, hc⟩
      rw [String.data_append, hd]
      rfl
    · simp at hx
      subst hx
      refine ⟨c, cs ++ nm.data ++ ("s" : String).data, ?_, hc⟩
      rw [String.data_append, String.data_append, hd]
      simp


theorem unit_item_head (nm : String) (v : ℕ) :
    ∀ x ∈ unit_item nm v, ∃ c cs, x.data = c :: cs ∧ c.isDigit = true := by
  intro x hx
  obtain ⟨c, cs, hd, hc⟩ := decRepr_head v
  unfold unit_item at hx
  split at hx
  · simp at hx
  · simp at hx
    subst hx
    refine ⟨c, cs ++ nm.data, ?_, hc⟩
    rw [String.data_append, hd]
    rfl

theorem humantimeParts_ne_nil (s : ℕ) (hs : s ≠ 0) : humantimeParts s ≠ [] := by
  unfold humantimeParts
  intro h
  simp only [List.append_eq_nil, plural_item_eq_nil, unit_item_eq_nil] at h
  omega

theorem humantimeParts_head (s : ℕ) :
    ∀ x ∈ humantimeParts s, ∃ c cs, x.data = c :: cs ∧ c.isDigit = true := by
  intro x hx
  unfold humantimeParts at hx
  simp only [List.mem_append] at hx
  rcases hx with ((((h | h) | h) | h) | h) | h
  · exact plural_item_head _ _ x h
  · exact plural_item_head _ _ x h
  · exact plural_item_head _ _ x h
  · exact unit_item_head _ _ x h
  · exact unit_item_head _ _ x h
  · exact unit_item_head _ _ x h

/-- The `humantime` rendering of a duration always starts with a decimal
digit, so it is never the literal `"done!"`. -/
theorem humantimeFmt_ne_done (s : ℕ) : humantimeFmt s ≠ "done!" := by
  unfold humantimeFmt
  split
  · decide
  · rename_i hs
    intro heq
    obtain ⟨c, cs, hdata, hc⟩ :=
      joinSp_head (humantimeParts s) (humantimeParts_ne_nil s hs)
        (humantimeParts_head s)
    rw [heq] at hdata
    have hdone : ("done!" : String).data = ['d', 'o', 'n', 'e', '!'] := rfl
    rw [hdone] at hdata
    have hcd : c = 'd' := by
      injection hdata with h1 _
      exact h1.symm
    subst hcd
    exact absurd hc (by decide)

theorem isDigit_ne_newline (c : Char) (h : c.isDigit = true) : c ≠ '\n' := by
  intro hc
  subst hc
  exact absurd h (by decide)

theorem decRepr_chars (n : ℕ) : ∀ c ∈ (decRepr n).data, c ≠ '\n' :=
  fun c hc => isDigit_ne_newline c ((decRepr_structure n).2 c hc)

theorem plural_item_chars (nm : String) (v : ℕ)
    (hnm : ∀ c ∈ nm.data, c ≠ '\n') :
    ∀ x ∈ plural_item nm v, ∀ c ∈ x.data, c ≠ '\n' := by
  intro x hx c hc
  unfold plural_item at hx
  split at hx
  · simp at hx
  · split at hx
    · simp at hx
      subst hx
      rw [String.data_append] at hc
      rcases List.mem_append.mp hc with h' | h'
      · exact decRepr_chars v c h'
      · exact hnm c h'
    · simp at hx
      subst hx
      rw [String.data_append, String.data_append] at hc
      rcases List.mem_append.mp hc with h' | h'
      · rcases List.mem_append.mp h' with h2 | h2
        · exact decRepr_chars v c h2
        · exact hnm c h2
      · have hsd : ("s" : String).data = ['s'] := rfl
        rw [hsd] at h'
        simp at h'
        subst h'
        decide

theorem unit_item_chars (nm : String) (v : ℕ)
    (hnm : ∀ c ∈ nm.data, c ≠ '\n') :
    ∀ x ∈ unit_item nm v, ∀ c ∈ x.data, c ≠ '\n' := by
  intro x hx c hc
  unfold unit_item at hx
  split at hx
  · simp at hx
  · simp at hx
    subst hx
    rw [String.data_append] at hc
    rcases List.mem_append.mp hc with h' | h'
    · exact decRepr_chars v c h'
    · exact hnm c h'

theorem humantimeFmt_chars (s : ℕ) :
    ∀ c ∈ (humantimeFmt s).data, c ≠ '\n' := by
  unfold humantimeFmt
  split
  · decide
  · apply joinSp_chars (fun c => c ≠ '\n') (by decide)
    intro x hx
    unfold humantimeParts at hx
    simp only [List.mem_append] at hx
    rcases hx with ((((h | h) | h) | h) | h) | h
    · exact plural_item_chars _ _ (by decide) x h
    · exact plural_item_chars _ _ (by decide) x h
    · exact plural_item_chars _ _ (by decide) x h
    · exact unit_item_chars _ _ (by decide) x h
    · exact unit_item_chars _ _ (by decide) x h
    · exact unit_item_chars _ _ (by decide) x h

theorem fmtF64Prec1_chars (x : F64) :
    ∀ c ∈ (fmtF64Prec1 x).data, c ≠ '\n' := by
  cases x with
  | nan => decide
  | inf => decide
  | val a =>
    intro c hc
    unfold fmtF64Prec1 at hc
    rw [String.data_append, String.data_append] at hc
    rcases List.mem_append.mp hc with h' | h'
    · rcases List.mem_append.mp h' with h2 | h2
      · exact decRepr_chars _ c h2
      · have hdot : ("." : String).data = ['.'] := rfl
        rw [hdot] at h2
        simp at h2
        subst h2
        decide
    · exact decRepr_chars _ c h'

theorem pctString_chars (p : Progress) :
    ∀ c ∈ (pctString p).data, c ≠ '\n' :=
  fmtF64Prec1_chars _

theorem etaOf_chars (p : Progress) (es : ℕ) :
    ∀ c ∈ (Progress.etaOf p es).data, c ≠ '\n' := by
  unfold Progress.etaOf
  split
  · decide
  · exact humantimeFmt_chars _

/-! ## Claim theorems -/

/-- C1: the claim says `estimate_time_left` clamps the remaining work to 0
when `work_done > work_total`.  The code instead substitutes `work_total`
for the failed subtraction (`checked_sub(..).unwrap_or(self.work_total)`),
contradicting both the claim and the code's own warning message ("using
work done == work total to calculate time left").  At `work_total = 2`,
`work_done = 3`, elapsed 3 s, the call returns 2 s (ratio 2/3 of the
elapsed 3 s), not the 0 s that clamping would give; the call does return a
value (no failure), which is the part of the claim the code meets. -/
theorem claim_C1_no_clamp_to_zero :
    Progress.estimate_time_left ⟨"test progress", 3, 0, 2⟩ 3 = 2 ∧
    Progress.estimate_time_left ⟨"test progress", 3, 0, 2⟩ 3 ≠ 0 := by
  decide

/-- C2: counterexample.  At `work_total = 50`, `work_done = 49`, elapsed
49 s the exact value of `((50 - 49) / 49) * 49` is exactly 1, so the claim
says the call returns 1 s; the `f64` evaluation rounds `1/49` down and the
product `fl(1/49) * 49` rounds to the double just below 1, which the
`as u64` cast truncates to 0. -/
theorem claim_C2_counterexample :
    Progress.estimate_time_left ⟨"test progress", 49, 0, 50⟩ 49 = 0 ∧
    (50 - 49) * 49 / 49 = 1 := by
  decide

/-- C2 (amended): for `1 ≤ work_done ≤ work_total`, `estimate_time_left`
returns the binary64 evaluation of `((work_total - work_done) / work_done)
* elapsed_seconds` truncated to whole seconds; this equals the exact
truncated rational value whenever no rounding occurs, in particular when
`work_done` divides the remaining work and `work_total`, the elapsed
seconds, and the resulting product stay below `2 ^ 53`. -/
theorem claim_C2_exact_when_no_rounding (p : Progress) (e : ℕ)
    (h1 : 0 < p.work_done) (h2 : p.work_done ≤ p.work_total)
    (hdvd : p.work_done ∣ (p.work_total - p.work_done))
    (hT : p.work_total < 2 ^ 53) (he : e < 2 ^ 53)
    (hqe : (p.work_total - p.work_done) / p.work_done * e < 2 ^ 53) :
    p.estimate_time_left e = (p.work_total - p.work_done) / p.work_done * e := by
  unfold Progress.estimate_time_left
  rw [if_pos h2]
  rw [f64ofNat_exact _ (lt_of_le_of_lt (Nat.sub_le _ _) hT)]
  rw [f64ofNat_exact _ (lt_of_le_of_lt h2 hT)]
  rw [f64ofNat_exact _ he]
  rw [f64div_exact _ _ h1 hdvd
    (lt_of_le_of_lt (Nat.div_le_self _ _) (lt_of_le_of_lt (Nat.sub_le _ _) hT))]
  rw [f64mul_exact _ _ hqe]
  exact f64toU64_val _ (lt_trans hqe (by norm_num))

/-- C2 witness: 50 of 100 units done after 1 s gives an estimate of
exactly 1 s (the scenario of the repository's own `estimate_eta_test`). -/
theorem claim_C2_witness :
    Progress.estimate_time_left ⟨"test progress", 50, 0, 100⟩ 1 =
      (100 - 50) / 50 * 1 :=
  claim_C2_exact_when_no_rounding ⟨"test progress", 50, 0, 100⟩ 1 (by decide)
    (by decide) (by decide) (by decide) (by decide) (by decide)

/-- C3: the claim says overflow of the `work_done` counter fails loudly.
The code uses an unchecked `u64` addition, which under the default release
profile silently wraps modulo `2 ^ 64`: incrementing from `u64::MAX` yields
0 for both `inc_work_done` and `inc_work_done_by`. -/
theorem claim_C3_overflow_wraps :
    (Progress.inc_work_done ⟨"j", 2 ^ 64 - 1, 0, 2⟩).work_done = 0 ∧
    (Progress.inc_work_done_by ⟨"j", 2 ^ 64 - 1, 0, 2⟩ 1).work_done = 0 := by
  decide

/-- C6 (amended): with `work_done = 0` and `work_total > 0` the ratio of
`estimate_time_left` is a true division by zero giving the non-finite
value `+infinity`; the final result is 0 only when the elapsed whole-second
count is 0 (then `infinity * 0` is NaN, and `NaN as u64` is 0); for any
elapsed time of at least one whole second, `infinity as u64` saturates to
`u64::MAX = 18446744073709551615` seconds. -/
theorem claim_C6_div_by_zero (nm : String) (t T e : ℕ) (hT : 0 < T)
    (hT2 : T < 2 ^ 64) (he : e < 2 ^ 64) :
    f64div (f64ofNat T) (f64ofNat 0) = F64.inf ∧
    Progress.estimate_time_left ⟨nm, 0, t, T⟩ e =
      if e = 0 then 0 else 2 ^ 64 - 1 := by
  obtain ⟨k, hk, hkpos⟩ := f64ofNat_pos T hT hT2
  have hdiv : f64div (f64ofNat T) (f64ofNat 0) = F64.inf := by
    rw [hk, f64ofNat_zero, f64div_val_val]
    simp [Nat.pos_iff_ne_zero.mp hkpos]
  refine ⟨hdiv, ?_⟩
  show f64toU64 (f64mul (f64div (f64ofNat (if 0 ≤ T then T - 0 else T))
    (f64ofNat 0)) (f64ofNat e)) = if e = 0 then 0 else 2 ^ 64 - 1
  rw [if_pos (Nat.zero_le _), Nat.sub_zero, hdiv]
  rcases Nat.eq_zero_or_pos e with he0 | hepos
  · subst he0
    rw [f64ofNat_zero, f64mul_inf_val, if_pos rfl]
    rfl
  · obtain ⟨j, hj, hjpos⟩ := f64ofNat_pos e hepos he
    rw [hj, f64mul_inf_val, if_neg (Nat.pos_iff_ne_zero.mp hjpos),
      if_neg (Nat.pos_iff_ne_zero.mp hepos)]
    rfl

/-- C6 counterexample to the claim as stated: with `work_total = 1`,
`work_done = 0` and 5 elapsed seconds the call does not return a
zero-duration result but `u64::MAX` seconds. -/
theorem claim_C6_counterexample :
    Progress.estimate_time_left ⟨"j", 0, 0, 1⟩ 5 ≠ 0 := by
  decide

/-- C6 witness: the amended statement at `work_total = 1`, 5 elapsed
seconds. -/
theorem claim_C6_witness :
    f64div (f64ofNat 1) (f64ofNat 0) = F64.inf ∧
    Progress.estimate_time_left ⟨"j", 0, 0, 1⟩ 5 =
      if (5 : ℕ) = 0 then 0 else 2 ^ 64 - 1 :=
  claim_C6_div_by_zero "j" 0 1 5 (by decide) (by decide) (by decide)

/-- C7: `set_work_done(k)` overwrites `work_done` with `k` unconditionally,
whatever the previous state (in particular even when `k` is smaller than
the previous counter value). -/
theorem claim_C7_set_overwrites (p : Progress) (k : ℕ) :
    (p.set_work_done k).work_done = k := rfl

/-- C8: every mutator (`inc_work_done`, `inc_work_done_by`,
`set_work_done`) leaves `name`, `work_total` and `started_at` unchanged;
only the constructor writes `work_total` and `started_at`. -/
theorem claim_C8_mutator_frame (p : Progress) (u k : ℕ) :
    p.inc_work_done.name = p.name ∧
    p.inc_work_done.work_total = p.work_total ∧
    p.inc_work_done.started_at = p.started_at ∧
    (p.inc_work_done_by u).name = p.name ∧
    (p.inc_work_done_by u).work_total = p.work_total ∧
    (p.inc_work_done_by u).started_at = p.started_at ∧
    (p.set_work_done k).name = p.name ∧
    (p.set_work_done k).work_total = p.work_total ∧
    (p.set_work_done k).started_at = p.started_at :=
  ⟨rfl, rfl, rfl, rfl, rfl, rfl, rfl, rfl, rfl⟩

/-- C4: the ETA field of `get_progress_string` is the literal `"done!"`
exactly when `work_done == work_total`, and otherwise it is the
`humantime` rendering of the `estimate_time_left` result; the full output
string is a prefix followed by `" ago, eta: "` and that ETA field. -/
theorem claim_C4_eta_field (p : Progress) (str : String) (es : ℕ) :
    (Progress.etaOf p es = "done!" ↔ p.work_done = p.work_total) ∧
    (p.work_done ≠ p.work_total →
      Progress.etaOf p es = humantimeFmt (p.estimate_time_left es)) ∧
    ∃ pre, p.get_progress_string str es =
      pre ++ " ago, eta: " ++ Progress.etaOf p es := by
  refine ⟨⟨?_, ?_⟩, ?_, ?_⟩
  · intro h
    by_contra hne
    rw [Progress.etaOf, if_neg hne] at h
    exact humantimeFmt_ne_done _ h
  · intro h
    rw [Progress.etaOf, if_pos h]
  · intro h
    rw [Progress.etaOf, if_neg h]
  · exact ⟨p.name ++ " " ++ decRepr p.work_done ++ "/" ++ decRepr p.work_total ++
      " - " ++ pctString p ++ "% started " ++ str, rfl⟩

/-- C4 witness: at 3 of 7 units done after 4 s the ETA field is the
`humantime` rendering of the estimate, concretely `"5s"`, and not
`"done!"`. -/
theorem claim_C4_witness :
    Progress.etaOf ⟨"j", 3, 0, 7⟩ 4 =
      humantimeFmt (Progress.estimate_time_left ⟨"j", 3, 0, 7⟩ 4) ∧
    Progress.etaOf ⟨"j", 3, 0, 7⟩ 4 = "5s" := by
  have h := claim_C4_eta_field ⟨"j", 3, 0, 7⟩ "x" 4
  refine ⟨h.2.1 (by decide), (h.2.1 (by decide)).trans ?_⟩
  decide

/-- C5: `get_progress_string` is exactly the concatenation
`name, " ", work_done, "/", work_total, " - ", percent, "% started ",
elapsed, " ago, eta: ", eta` where the percent field is the binary64
evaluation of `work_done / work_total * 100` formatted to one decimal
place; and the output is a single line (contains no newline) whenever the
verbatim name and the elapsed rendering contain none (all characters the
formatter itself adds are digits, letters, spaces and punctuation). -/
theorem claim_C5_shape (p : Progress) (str : String) (es : ℕ) :
    p.get_progress_string str es =
      p.name ++ " " ++ decRepr p.work_done ++ "/" ++ decRepr p.work_total ++
        " - " ++ pctString p ++ "% started " ++ str ++ " ago, eta: " ++
        Progress.etaOf p es ∧
    pctString p = fmtF64Prec1 (f64mul (f64div (f64ofNat p.work_done)
      (f64ofNat p.work_total)) (f64ofNat 100)) ∧
    ((∀ c ∈ p.name.data, c ≠ '\n') → (∀ c ∈ str.data, c ≠ '\n') →
      ∀ c ∈ (p.get_progress_string str es).data, c ≠ '\n') := by
  refine ⟨rfl, rfl, ?_⟩
  intro hname hstr c hc
  unfold Progress.get_progress_string at hc
  simp only [String.data_append, List.mem_append] at hc
  rcases hc with (((((((((h | h) | h) | h) | h) | h) | h) | h) | h) | h) | h
  · exact hname c h
  · fin_cases h <;> decide
  · exact decRepr_chars _ c h
  · fin_cases h <;> decide
  · exact decRepr_chars _ c h
  · fin_cases h <;> decide
  · exact pctString_chars p c h
  · fin_cases h <;> decide
  · exact hstr c h
  · fin_cases h <;> decide
  · exact etaOf_chars p es c h

/-- C5 witness: the repository's own `get_progress_string_test` scenario,
50 of 100 units done. -/
theorem claim_C5_witness :
    (∀ c ∈ (Progress.get_progress_string ⟨"test progress", 50, 0, 100⟩
      "41ns" 0).data, c ≠ '\n') ∧
    Progress.get_progress_string ⟨"test progress", 50, 0, 100⟩ "41ns" 0 =
      "test progress" ++ " " ++ decRepr 50 ++ "/" ++ decRepr 100 ++ " - " ++
        pctString ⟨"test progress", 50, 0, 100⟩ ++ "% started " ++ "41ns" ++
        " ago, eta: " ++ Progress.etaOf ⟨"test progress", 50, 0, 100⟩ 0 :=
  ⟨(claim_C5_shape ⟨"test progress", 50, 0, 100⟩ "41ns" 0).2.2 (by decide)
      (by decide),
    (claim_C5_shape ⟨"test progress", 50, 0, 100⟩ "41ns" 0).1⟩

/-- C9: `get_progress_string` takes `&self` and mutates nothing (the call
returns the unchanged state), and two calls on the same state observing
the same whole-second elapsed count (two calls in immediate succession)
produce strings that agree on every field except the elapsed-time
rendering. -/
theorem claim_C9_pure_read (p : Progress) (s1 s2 : String) (es : ℕ) :
    (p.get_progress_string_call s1 es).2 = p ∧
    ∃ pre eta,
      (p.get_progress_string_call s1 es).1 =
        pre ++ "% started " ++ s1 ++ " ago, eta: " ++ eta ∧
      p.get_progress_string s2 es =
        pre ++ "% started " ++ s2 ++ " ago, eta: " ++ eta :=
  ⟨rfl,
    p.name ++ " " ++ decRepr p.work_done ++ "/" ++ decRepr p.work_total ++
      " - " ++ pctString p,
    Progress.etaOf p es, rfl, rfl⟩

/-- C10: a tracker constructed with `work_total = 0` has
`work_done == work_total` immediately, so the formatter takes the
`"done!"` branch (the estimator branch is not taken) and always returns;
the percentage field is the rendering of the `0/0` binary64 division,
which is NaN, printed `"NaN"`. -/
theorem claim_C10_zero_total (nm str : String) (t es : ℕ) :
    Progress.etaOf (Progress.new nm 0 t) es = "done!" ∧
    pctString (Progress.new nm 0 t) = "NaN" ∧
    f64div (f64ofNat 0) (f64ofNat 0) = F64.nan ∧
    Progress.get_progress_string (Progress.new nm 0 t) str es =
      nm ++ " " ++ "0" ++ "/" ++ "0" ++ " - " ++ "NaN" ++ "% started " ++
        str ++ " ago, eta: " ++ "done!" := by
  have h1 : decRepr 0 = "0" := by decide
  have h2 : pctString ⟨nm, 0, t, 0⟩ = "NaN" := by
    show fmtF64Prec1 (f64mul (f64div (f64ofNat 0) (f64ofNat 0))
      (f64ofNat 100)) = "NaN"
    decide
  have h3 : Progress.etaOf ⟨nm, 0, t, 0⟩ es = "done!" := by
    show (if (0 : ℕ) = 0 then "done!"
      else humantimeFmt (Progress.estimate_time_left ⟨nm, 0, t, 0⟩ es)) = "done!"
    rw [if_pos rfl]
  refine ⟨h3, h2, by decide, ?_⟩
  show nm ++ " " ++ decRepr (0 : ℕ) ++ "/" ++ decRepr (0 : ℕ) ++ " - " ++
    pctString ⟨nm, 0, t, 0⟩ ++ "% started " ++ str ++ " ago, eta: " ++
    Progress.etaOf ⟨nm, 0, t, 0⟩ es = _
  rw [h1, h2, h3]

end PitWall
